import Mathlib

/-!
Verification development for the EquitySchema synchronization engine
(`src/etl.py`, `src/core.py`).

The Python code is shallowly embedded: pandas DataFrames indexed by date
become association lists `List (Int × Row)` (dates as integer day numbers,
in the order the frame's rows appear), NaN cells become `none`, the
filesystem becomes an explicit record of the persisted artifacts, and the
external yfinance provider becomes an oracle argument.  Numeric cells are
modelled after `pd.to_numeric(..., errors='coerce')` has run: a cell is
either a number or absent.  Prices are rationals (float in the source),
volume an integer (`astype('int64')` in the source).
-/

namespace EquitySchema

/-- One row of the per-ticker price frame: the seven numeric columns of
`fetch_prices` (`open/high/low/close/volume/dividends/stockSplits`).
The constant `Ticker` column is implicit (one series per ticker). -/
structure Row where
  open_ : Option ℚ
  high : Option ℚ
  low : Option ℚ
  close : Option ℚ
  volume : Option Int
  dividends : Option ℚ
  stockSplits : Option ℚ
deriving DecidableEq, Repr

/-- A per-ticker time series: the frame's rows in order, keyed by date. -/
abbrev Series := List (Int × Row)

/-- Row with every cell absent (used as the state before the first row
when forward filling). -/
def emptyRow : Row := ⟨none, none, none, none, none, none, none⟩

/-- `etl.py` line 93: `mask(data[cols] <= 0)` on one price cell.
A NaN cell compares false in pandas, so it stays absent. -/
def maskPrice (p : Option ℚ) : Option ℚ :=
  match p with
  | some v => if v ≤ 0 then none else some v
  | none => none

/-- `etl.py` lines 87-93: replace `<= 0` with NaN in the four price columns. -/
def maskPrices (r : Row) : Row :=
  { r with open_ := maskPrice r.open_, high := maskPrice r.high,
           low := maskPrice r.low, close := maskPrice r.close }

/-- `etl.py` lines 95-97: replace `< 0` with NaN in volume (`0` is kept). -/
def maskVolume (r : Row) : Row :=
  { r with volume := match r.volume with
                     | some v => if v < 0 then none else some v
                     | none => none }

/-- One cell of pandas `ffill`: keep the current value if present,
otherwise take the carried previous value. -/
def fill2 {α : Type} (prev cur : Option α) : Option α :=
  match cur with
  | some v => some v
  | none => prev

/-- `ffill` acting on one row given the carried previous row. -/
def ffillRow (prev cur : Row) : Row :=
  ⟨fill2 prev.open_ cur.open_, fill2 prev.high cur.high,
   fill2 prev.low cur.low, fill2 prev.close cur.close,
   fill2 prev.volume cur.volume, fill2 prev.dividends cur.dividends,
   fill2 prev.stockSplits cur.stockSplits⟩

/-- `etl.py` line 109: `data.ffill()`, carrying the filled previous row
forward (the `Date` key has no NaN and is untouched). -/
def ffillAux (prev : Row) : Series → Series
  | [] => []
  | (d, r) :: rest =>
      let r' := ffillRow prev r
      (d, r') :: ffillAux r' rest

/-- Forward fill of a whole series (nothing before the first row). -/
def ffill (s : Series) : Series := ffillAux emptyRow s

/-- `etl.py` line 106: `sort_values('Date')`, ascending by date. -/
def sortByDate (s : Series) : Series :=
  List.insertionSort (fun a b => a.1 ≤ b.1) s

/-- Outcome of one `yf_ticker.history` call: a raised error or the raw
frame (cells already numeric-or-absent per `to_numeric(errors='coerce')`). -/
inductive FetchOut where
  | err
  | ok (rows : Series)

/-- `etl.py` lines 84-106: the cleaning done by `fetch_prices` before the
forward fill — anomaly masking on every row, then sort by date. -/
def cleanStage (rows : Series) : Series :=
  sortByDate (rows.map (fun x => (x.1, maskVolume (maskPrices x.2))))

/-- `etl.py` lines 54-114, `fetch_prices`: any raised error is caught and
yields an empty frame; an empty history yields an empty frame; otherwise
the frame is masked, sorted by date and forward filled. -/
def fetch_prices (out : FetchOut) : Series :=
  match out with
  | .err => []
  | .ok rows => if rows.isEmpty then [] else ffill (cleanStage rows)

/-- pandas `duplicated(keep='last')` / `drop_duplicates(keep='last')`:
keep each row that is the last occurrence of its key, in frame order. -/
def dropDupKeepLast {α κ : Type} [DecidableEq κ] (key : α → κ) : List α → List α
  | [] => []
  | x :: xs =>
      if xs.any (fun y => key y = key x) then dropDupKeepLast key xs
      else x :: dropDupKeepLast key xs

/-- `etl.py` lines 280-284: `concat([existing, new])`, drop rows dated
before the cutoff, then dedup by date keeping the last occurrence (so the
freshly fetched row wins on a collision). -/
def mergeSeries (existing newData : Series) (cutoff : Int) : Series :=
  dropDupKeepLast Prod.fst
    ((existing ++ newData).filter (fun x => decide (cutoff ≤ x.1)))

/-- `etl.py` lines 288-297, schema enforcement on one row: volume NaN is
filled with 0 and cast to integer; price columns are (already) floats. -/
def enforceRow (r : Row) : Row :=
  { r with volume := some (r.volume.getD 0) }

/-- Schema enforcement over the whole frame about to be persisted. -/
def schemaEnforce (s : Series) : Series :=
  s.map (fun x => (x.1, enforceRow x.2))

/-- `updated_data['Date'].max()` / `existing_data.index.max()` on a
non-empty frame (the source would raise on an empty frame; the 0 default
is never reached there). -/
def maxDate (s : Series) : Int :=
  match s with
  | [] => 0
  | (d, _) :: rest => rest.foldl (fun m x => max m x.1) d

/-- Python `dict.get` / `in` on an association list (JSON object keys are
unique, so first match is the match). -/
def lookupKey {β : Type} (k : String) : List (String × β) → Option β
  | [] => none
  | e :: rest => if e.1 = k then some e.2 else lookupKey k rest

/-- Python dict assignment `d[k] = v`: overwrite in place, else append. -/
def setEntry (k : String) (v : Int) : List (String × Int) → List (String × Int)
  | [] => [(k, v)]
  | e :: rest => if e.1 = k then (k, v) :: rest else e :: setEntry k v rest

/-- The persisted artifacts touched by `update_stock_prices`:
`prices_log.json` (`none` = file missing, `.error` = unreadable/corrupt,
`.ok` = parsed mapping with dates as day numbers) and the per-ticker
parquet files (`none` = file missing). -/
structure FS where
  log : Option (Except Unit (List (String × Int)))
  prices : String → Option Series

/-- `etl.py` lines 48-50, `save_prices_log`: rewrite the whole mapping. -/
def save_prices_log (m : List (String × Int)) (fs : FS) : FS :=
  { fs with log := some (.ok m) }

/-- `etl.py` lines 12-46, `load_prices_log`: missing or unreadable file
gives an empty mapping; otherwise entries whose parquet file is missing
are dropped, and if anything was dropped the pruned mapping is saved back
immediately.  Returns the mapping and the (possibly rewritten) state. -/
def load_prices_log (fs : FS) : List (String × Int) × FS :=
  match fs.log with
  | none => ([], fs)
  | some (.error _) => ([], fs)
  | some (.ok m) =>
      let clean := m.filter (fun e => (fs.prices e.1).isSome)
      if m.any (fun e => (fs.prices e.1).isNone) then (clean, save_prices_log clean fs)
      else (m, fs)

/-- In-flight state of one `update_stock_prices` pass: the parquet files,
the in-memory `prices_log` dict, and the `log_updated` flag. -/
structure PassSt where
  prices : String → Option Series
  logMem : List (String × Int)
  logUpdated : Bool

/-- Function update for the per-ticker parquet store (`to_parquet`). -/
def setPrice (f : String → Option Series) (t : String) (s : Series) :
    String → Option Series :=
  fun x => if x = t then some s else f x

/-- `etl.py` lines 226-248: determine `last_date` for one ticker — from
the in-memory log if present, else from an existing non-empty parquet
file (in which case the log entry is restored and `log_updated` set). -/
def resolveLast (st : PassSt) (ticker : String) : Option Int × PassSt :=
  match lookupKey ticker st.logMem with
  | some d => (some d, st)
  | none =>
      match st.prices ticker with
      | some series =>
          if series.isEmpty then (none, st)
          else
            let d := maxDate series
            (some d, { st with logMem := setEntry ticker d st.logMem, logUpdated := true })
      | none => (none, st)

/-- `etl.py` lines 250-307: fetch the delta when stale, and on a
non-empty fetch merge with the existing file, enforce the schema, persist
and record the new last date. -/
def fetchPersist (today cutoff : Int) (oracle : String → Int → FetchOut)
    (st : PassSt) (ticker : String) (lastDate : Option Int) : PassSt :=
  let needFetch := match lastDate with
                   | none => true
                   | some d => decide (d < today)
  if needFetch then
    let start := match lastDate with
                 | some d => d + 1
                 | none => cutoff
    if start ≤ today then
      let newData := fetch_prices (oracle ticker start)
      if newData.isEmpty then st
      else
        let existing := (st.prices ticker).getD []
        let updated := if existing.isEmpty then newData
                       else mergeSeries existing newData cutoff
        let persisted := schemaEnforce updated
        { prices := setPrice st.prices ticker persisted,
          logMem := setEntry ticker (maxDate persisted) st.logMem,
          logUpdated := true }
    else st
  else st

/-- One iteration of the ticker loop of `update_stock_prices`. -/
def stepTicker (today cutoff : Int) (oracle : String → Int → FetchOut)
    (st : PassSt) (ticker : String) : PassSt :=
  let (lastDate, st') := resolveLast st ticker
  fetchPersist today cutoff oracle st' ticker lastDate

/-- `etl.py` lines 208-311, `update_stock_prices`: load (and possibly
prune) the log, run the per-ticker loop, and save the in-memory log iff
`log_updated`.  `today` is `pd.Timestamp.now()` at day granularity and
`cutoff` is `today` minus the 5-year retention horizon. -/
def update_stock_prices (today cutoff : Int) (oracle : String → Int → FetchOut)
    (tickers : List String) (fs : FS) : FS :=
  let p := load_prices_log fs
  let st := tickers.foldl (stepTicker today cutoff oracle) ⟨p.2.prices, p.1, false⟩
  if st.logUpdated then { log := some (.ok st.logMem), prices := st.prices }
  else { p.2 with prices := st.prices }

/-- The final on-disk log entry for a ticker (`none` when the log file is
missing or unreadable, or the ticker has no entry). -/
def entryOf (fs : FS) (t : String) : Option Int :=
  match fs.log with
  | some (.ok m) => lookupKey t m
  | _ => none

/-- What a pass leaves as the log entry of a ticker it could not fetch
anything for: the entry reconciled with storage — dropped if the parquet
file is missing, kept if present, restored from a non-empty file. -/
def reconciledEntry (fs : FS) (t : String) : Option Int :=
  match fs.prices t with
  | none => none
  | some s =>
      match entryOf fs t with
      | some d => some d
      | none => if s.isEmpty then none else some (maxDate s)

/-- The close cell of row `i` of a series (absent when out of range). -/
def closeAt (s : Series) (i : ℕ) : Option ℚ :=
  (s.map (fun x => x.2.close)).getD i none

/-- The volume cell of row `i` of a series (absent when out of range). -/
def volAt (s : Series) (i : ℕ) : Option Int :=
  (s.map (fun x => x.2.volume)).getD i none

/-- A row whose only possibly-present cell is `close`. -/
def rowC (v : Option ℚ) : Row := ⟨none, none, none, v, none, none, none⟩

/-- A fetched batch with one present close followed by `B + 1` absent
closes on consecutive dates. -/
def runBatch (B : ℕ) : Series :=
  (0, rowC (some 5)) :: (List.range (B + 1)).map (fun (i : ℕ) => ((i : Int) + 1, rowC none))

/-- The `lastUpdated` cell of a `dim_ticker.csv` row: missing (NaN),
present but unparseable by `pd.to_datetime`, or a parsed day number. -/
inductive Cell where
  | na
  | bad
  | date (d : Int)
deriving DecidableEq, Repr

/-- A metadata table: `dim_ticker.csv` rows as (Ticker, lastUpdated),
the descriptive columns being irrelevant to the refresh logic. -/
abbrev MetaTable := List (String × Cell)

/-- `etl.py` lines 320-330: the existing `dim_ticker.csv` — missing file
and unreadable file both start from an empty table, never raising. -/
def readMetaTable (file : Option (Except Unit MetaTable)) : MetaTable :=
  match file with
  | none => []
  | some (.error _) => []
  | some (.ok t) => t

/-- `etl.py` lines 336-347: the 7-day freshness test for one ticker —
the first matching row must have a non-NaN, parseable `lastUpdated`
strictly less than 7 days old; every failure of that test means "fetch". -/
def isFresh (existing : MetaTable) (now : Int) (t : String) : Bool :=
  match existing.find? (fun r => r.1 = t) with
  | some (_, Cell.date d) => decide (now - d < 7)
  | _ => false

/-- `etl.py` lines 332-355: the refresh loop.  Returns the tickers for
which a fetch was attempted and the `metadata_list` of records written
(each stamped `lastUpdated = now`; a failed fetch writes nothing). -/
def metaLoop (now : Int) (fOK : String → Bool) (existing : MetaTable) :
    List String → List String × MetaTable
  | [] => ([], [])
  | t :: rest =>
      if isFresh existing now t then metaLoop now fOK existing rest
      else
        let p := metaLoop now fOK existing rest
        (t :: p.1, (if fOK t then [(t, Cell.date now)] else []) ++ p.2)

/-- `etl.py` lines 313-373, `update_stock_metadata`: combine the new
records with the existing table, keeping the newest row per ticker
(`drop_duplicates(subset=['Ticker'], keep='last')`).  Returns the list of
fetched tickers and the resulting table. -/
def update_stock_metadata (now : Int) (fOK : String → Bool)
    (file : Option (Except Unit MetaTable)) (tickers : List String) :
    List String × MetaTable :=
  let existing := readMetaTable file
  let p := metaLoop now fOK existing tickers
  if p.2.isEmpty then (p.1, existing)
  else if existing.isEmpty then (p.1, p.2)
  else (p.1, dropDupKeepLast Prod.fst (existing ++ p.2))

/-- The persisted artifacts touched by `remove_tickers` (`core.py`):
the prices log, existence of the per-ticker prices and financials parquet
files, and `dim_ticker.csv`. -/
structure CoreFS where
  log : Option (Except Unit (List (String × Int)))
  pricesF : String → Bool
  finF : String → Bool
  dim : Option (Except Unit MetaTable)

/-- Which of the caught try/except blocks of `remove_tickers` raise.
A failed block's effect is skipped; execution continues. -/
structure RFail where
  logStep : Bool
  metaStep : String → Bool
  priceStep : String → Bool
  finStep : String → Bool

/-- The all-succeed failure oracle. -/
def noRFail : RFail := ⟨false, fun _ => false, fun _ => false, fun _ => false⟩

/-- The externally observable cascade actions of `remove_tickers`, in
attempt order: prune the prices log, rewrite `dim_ticker.csv` without the
ticker's row, delete the prices file, delete the financials file. -/
inductive RAct where
  | pruneLog
  | metaRow (t : String)
  | priceFile (t : String)
  | finFile (t : String)
deriving DecidableEq, Repr

/-- `core.py` lines 106-116, the metadata try/except block for one
ticker: if `dim_ticker.csv` exists and is readable and holds a row for
the ticker, rewrite it without that row; a raised error (unreadable file
or injected failure) is caught and leaves the table as it was. -/
def metaBlock (fl : RFail) (fs : CoreFS) (t : String) : Option (Except Unit MetaTable) :=
  if fl.metaStep t then fs.dim
  else
    match fs.dim with
    | some (.ok rows) =>
        if rows.any (fun r => r.1 = t) then
          some (.ok (rows.filter (fun r => decide (r.1 ≠ t))))
        else fs.dim
    | _ => fs.dim

/-- `core.py` lines 118-125, the prices-file try/except block: unlink the
file if it exists (its absence is tolerated); a failure is caught. -/
def priceBlockF (fl : RFail) (fs : CoreFS) (t : String) : String → Bool :=
  if fl.priceStep t then fs.pricesF
  else if fs.pricesF t then fun x => if x = t then false else fs.pricesF x
  else fs.pricesF

/-- `core.py` lines 127-133, the financials-file try/except block. -/
def finBlockF (fl : RFail) (fs : CoreFS) (t : String) : String → Bool :=
  if fl.finStep t then fs.finF
  else if fs.finF t then fun x => if x = t then false else fs.finF x
  else fs.finF

/-- `core.py` lines 104-133, one iteration of the deletion loop: the
metadata block, then the prices-file block, then the financials block,
each in its own try/except. -/
def removeOne (fl : RFail) (fs : CoreFS) (t : String) : CoreFS :=
  let fs1 := { fs with dim := metaBlock fl fs t }
  let fs2 := { fs1 with pricesF := priceBlockF fl fs1 t }
  { fs2 with finF := finBlockF fl fs2 t }

/-- `core.py` lines 86-102: prune the prices log of every removed ticker
and rewrite it if anything changed; a missing file skips the block, and a
raised error (corrupt JSON or injected failure) is caught. -/
def pruneLogFS (fl : RFail) (valid : List String) (fs : CoreFS) : CoreFS :=
  match fs.log with
  | none => fs
  | some content =>
      if fl.logStep then fs
      else
        match content with
        | .error _ => fs
        | .ok m =>
            if m.any (fun e => decide (e.1 ∈ valid)) then
              { fs with log := some (.ok (m.filter (fun e => decide (e.1 ∉ valid)))) }
            else fs

/-- The log-prune block is attempted exactly when the log file exists
(`core.py` line 87), regardless of whether it then fails. -/
def pruneLogTrace (fs : CoreFS) : List RAct :=
  match fs.log with
  | none => []
  | some _ => [RAct.pruneLog]

/-- `core.py` lines 64-135, `remove_tickers`: filter the removals down to
tickers present in the registry, drop them from the registry frame, prune
the prices log, then run the per-ticker deletion loop.  Also returns the
trace of attempted cascade actions in program order. -/
def remove_tickers (df toRemove : List String) (fl : RFail) (fs : CoreFS) :
    List String × CoreFS × List RAct :=
  let valid := toRemove.filter (fun t => decide (t ∈ df))
  if valid.isEmpty then (df, fs, [])
  else
    let df' := df.filter (fun t => decide (t ∉ valid))
    let fs1 := pruneLogFS fl valid fs
    let fs2 := valid.foldl (removeOne fl) fs1
    (df', fs2,
     pruneLogTrace fs
       ++ valid.flatMap (fun t => [RAct.metaRow t, RAct.priceFile t, RAct.finFile t]))

/-- A pandas DataFrame as read from a CSV: column names and rows. -/
structure Frame where
  cols : List String
  rows : List (List String)
deriving DecidableEq, Repr

/-- `config.py`: the fixed registry file path. -/
def all_tickers_file : String := "data/all_tickers.csv"

/-- The empty registry frame `pd.DataFrame(columns=['Ticker'])`. -/
def emptyTickersFrame : Frame := ⟨["Ticker"], []⟩

/-- pandas `df.empty`: no rows or no columns. -/
def frameEmpty (f : Frame) : Bool := f.rows.isEmpty || f.cols.isEmpty

/-- `core.py` lines 15-35, `load_tickers`: always reads
`all_tickers_file` (the `tickers_path` argument is never used); a missing
or unreadable file, an empty frame, or a frame without a `Ticker` column
all yield the empty `Ticker` frame; otherwise the frame is returned. -/
def load_tickers (fsRead : String → Option (Except Unit Frame))
    (tickers_path : String) : Frame :=
  match fsRead all_tickers_file with
  | none => emptyTickersFrame
  | some (.error _) => emptyTickersFrame
  | some (.ok df) =>
      if frameEmpty df || decide ("Ticker" ∉ df.cols) then emptyTickersFrame else df

/-- A price cell that is positive or absent. -/
def priceOK (p : Option ℚ) : Prop := ∀ v, p = some v → 0 < v

/-- A volume cell that is non-negative or absent. -/
def volOK (p : Option Int) : Prop := ∀ v, p = some v → 0 ≤ v

/-- The value invariant of one persisted row: all four price fields
positive or absent, volume non-negative or absent. -/
def rowOK (r : Row) : Prop :=
  priceOK r.open_ ∧ priceOK r.high ∧ priceOK r.low ∧ priceOK r.close ∧ volOK r.volume

/-- The value invariant of a whole series. -/
def seriesOK (s : Series) : Prop := ∀ x ∈ s, rowOK x.2

/-- The value invariant of every on-disk series. -/
def pricesOK (f : String → Option Series) : Prop := ∀ t s, f t = some s → seriesOK s

/-- A concrete valid row used by the counterexamples. -/
def sampleRow : Row := ⟨some 1, some 1, some 1, some 1, some 1, some 0, some 0⟩

/-- State for the retention counterexample: ticker `AAA` is current in
the log (entry = today = 100) and its file holds one row dated 49, older
than the cutoff 50. -/
def fsC3 : FS :=
  ⟨some (.ok [("AAA", 100)]), fun t => if t = "AAA" then some [(49, sampleRow)] else none⟩

/-- State for the empty-fetch counterexample: the log exists but has no
entry for `AAA`, whose file holds one row dated 49. -/
def fsC4 : FS :=
  ⟨some (.ok []), fun t => if t = "AAA" then some [(49, sampleRow)] else none⟩

/-- A raw fetched row with all cells present and valid. -/
def r6a : Row := ⟨some 10, some 12, some 9, some 5, some 7, some 0, some 0⟩

/-- A raw fetched row with a zero close price and a negative volume. -/
def r6b : Row := ⟨some 10, some 12, some 9, some 0, some (-5), some 0, some 0⟩

/-- State for the cascade counterexample: ticker `XYZ` has a log entry,
both parquet files, and a `dim_ticker.csv` row. -/
def fsC7 : CoreFS :=
  ⟨some (.ok [("XYZ", 7)]), fun t => decide (t = "XYZ"), fun t => decide (t = "XYZ"),
   some (.ok [("XYZ", Cell.date 0)])⟩

/-! ### Helper lemmas -/

theorem mem_of_mem_dropDup {α κ : Type} [DecidableEq κ] (key : α → κ)
    {l : List α} {x : α} (h : x ∈ dropDupKeepLast key l) : x ∈ l := by
  induction l with
  | nil => simpa [dropDupKeepLast] using h
  | cons a as ih =>
      rw [dropDupKeepLast] at h
      split at h
      · exact List.mem_cons_of_mem a (ih h)
      · rcases List.mem_cons.mp h with h1 | h2
        · exact h1 ▸ List.mem_cons_self a as
        · exact List.mem_cons_of_mem a (ih h2)

theorem keys_nodup_dropDup {α κ : Type} [DecidableEq κ] (key : α → κ)
    (l : List α) : ((dropDupKeepLast key l).map key).Nodup := by
  induction l with
  | nil => simp [dropDupKeepLast]
  | cons a as ih =>
      rw [dropDupKeepLast]
      split
      · exact ih
      · rename_i hany
        rw [List.map_cons]
        refine List.nodup_cons.mpr ⟨?_, ih⟩
        intro hmem
        rcases List.mem_map.mp hmem with ⟨y, hy, hkey⟩
        have hy' : y ∈ as := mem_of_mem_dropDup key hy
        have : as.any (fun y => decide (key y = key a)) = true :=
          List.any_eq_true.mpr ⟨y, hy', by simp [hkey]⟩
        exact hany this

theorem mem_dropDup_of_last {α κ : Type} [DecidableEq κ] (key : α → κ)
    (l1 l2 : List α) (a : α) (h : ∀ b ∈ l2, key b ≠ key a) :
    a ∈ dropDupKeepLast key (l1 ++ a :: l2) := by
  induction l1 with
  | nil =>
      rw [List.nil_append, dropDupKeepLast]
      have hany : l2.any (fun y => decide (key y = key a)) = false := by
        rw [List.any_eq_false]
        intro y hy
        simpa using h y hy
      rw [hany]
      simp
  | cons x xs ih =>
      rw [List.cons_append, dropDupKeepLast]
      split
      · exact ih
      · exact List.mem_cons_of_mem x ih

theorem lookupKey_eq_of_mem {β : Type} {l : List (String × β)} {k : String} {c : β}
    (hnodup : (l.map Prod.fst).Nodup) (hmem : (k, c) ∈ l) :
    lookupKey k l = some c := by
  induction l with
  | nil => cases hmem
  | cons e rest ih =>
      rw [List.map_cons, List.nodup_cons] at hnodup
      rcases List.mem_cons.mp hmem with h1 | h2
      · rw [lookupKey, ← h1]
        simp
      · have hne : e.1 ≠ k := by
          intro hk
          exact hnodup.1 (hk ▸ List.mem_map_of_mem Prod.fst h2)
        rw [lookupKey, if_neg hne]
        exact ih hnodup.2 h2

theorem schemaEnforce_keys (s : Series) :
    (schemaEnforce s).map Prod.fst = s.map Prod.fst := by
  simp [schemaEnforce, List.map_map]

/-! ### C1: merge deduplication and correction precedence -/

/-- Claim C1: when a merge occurs in `update_stock_prices`, the persisted
merged series has pairwise-distinct timestamps, and a timestamp present
in both the existing series and the fetched delta keeps the delta's row
(stated for deltas with distinct timestamps, as `yfinance` frames have,
and for dates surviving the retention cutoff). -/
theorem C1_merge_dedup_delta_wins (existing newData : Series) (cutoff d : Int)
    (v2 : Row) (hnodup : (newData.map Prod.fst).Nodup)
    (hmem : (d, v2) ∈ newData) (hcut : cutoff ≤ d) :
    ((schemaEnforce (mergeSeries existing newData cutoff)).map Prod.fst).Nodup ∧
    (d, v2) ∈ mergeSeries existing newData cutoff := by
  constructor
  · rw [schemaEnforce_keys]
    exact keys_nodup_dropDup Prod.fst _
  · rcases List.append_of_mem hmem with ⟨n1, n2, rfl⟩
    have hkeys : (n1.map Prod.fst ++ d :: n2.map Prod.fst).Nodup := by
      simpa using hnodup
    have hd2 : d ∉ n2.map Prod.fst :=
      (List.nodup_cons.mp (List.Nodup.of_append_right hkeys)).1
    rw [mergeSeries, ← List.append_assoc, List.filter_append]
    have hfc : ((d, v2) :: n2).filter (fun x => decide (cutoff ≤ x.1)) =
        (d, v2) :: n2.filter (fun x => decide (cutoff ≤ x.1)) := by
      rw [List.filter_cons]
      simp [hcut]
    rw [hfc]
    apply mem_dropDup_of_last
    intro b hb hkey
    have hb1 : b.1 ∈ n2.map Prod.fst :=
      List.mem_map_of_mem Prod.fst (List.mem_of_mem_filter hb)
    rw [hkey] at hb1
    exact hd2 hb1

/-- Witness for C1 at a concrete merge: existing rows on dates 1 and 3,
delta rows on dates 3 and 5, cutoff 2. -/
theorem C1_merge_dedup_delta_wins_witness :
    ((schemaEnforce (mergeSeries [(1, sampleRow), (3, sampleRow)]
        [(3, r6a), (5, r6a)] 2)).map Prod.fst).Nodup ∧
    ((3 : Int), r6a) ∈ mergeSeries [(1, sampleRow), (3, sampleRow)] [(3, r6a), (5, r6a)] 2 :=
  C1_merge_dedup_delta_wins [(1, sampleRow), (3, sampleRow)] [(3, r6a), (5, r6a)]
    2 3 r6a (by decide) (by decide) (by decide)

/-! ### C3: retention invariant -/

/-- Claim C3 is false as stated: a pass that skips an already-current
ticker leaves its file untouched, so a row dated 49 — older than the
cutoff 50 — survives the pass. -/
theorem C3_counterexample :
    (update_stock_prices 100 50 (fun _ _ => FetchOut.err) ["AAA"] fsC3).prices "AAA"
      = some [(49, sampleRow)] ∧ (49 : Int) < 50 := by
  exact ⟨rfl, by decide⟩

/-- Claim C3 amended: the retention window is enforced only on the series
the pass writes through the merge branch — every row of a persisted
merged series is dated on or after the cutoff. -/
theorem C3_retention_of_merge (e n : Series) (c : Int) (x : Int × Row)
    (hx : x ∈ schemaEnforce (mergeSeries e n c)) : c ≤ x.1 := by
  rcases List.mem_map.mp hx with ⟨y, hy, hxy⟩
  have hyf := mem_of_mem_dropDup Prod.fst hy
  have := List.of_mem_filter hyf
  have hc : c ≤ y.1 := by simpa using this
  rw [← hxy]
  exact hc

/-- Witness for the amended C3 at a concrete merge. -/
theorem C3_retention_of_merge_witness :
    (2 : Int) ≤ (3, enforceRow r6a).1 :=
  C3_retention_of_merge [(1, sampleRow)] [(3, r6a)] 2 (3, enforceRow r6a) (by decide)

/-! ### C4: empty fetch leaves the entity untouched -/

/-- Claim C4 is false as stated: for ticker `AAA` — absent from the log
but with an existing file — a pass whose fetch returns no rows still
changes `AAA`'s log entry (the file-fallback of `etl.py` lines 232-248
restores the entry from storage and the final save persists it). -/
theorem C4_counterexample :
    fetch_prices (FetchOut.ok []) = [] ∧
    entryOf fsC4 "AAA" = none ∧
    entryOf (update_stock_prices 100 50 (fun _ _ => FetchOut.ok []) ["AAA"] fsC4) "AAA"
      = some 49 := by
  exact ⟨rfl, rfl, rfl⟩

/-! ### C2: loading the freshness index -/

/-- Claim C2: `load_prices_log` returns an empty mapping (leaving the
state alone) when the index file is missing or unreadable; on a readable
index it returns exactly the entries whose parquet file exists, in order,
rewrites the pruned index to disk as soon as any entry was dropped, and
leaves everything unchanged when nothing was dropped. -/
theorem C2_load_prices_log (fs : FS) :
    (fs.log = none → load_prices_log fs = ([], fs)) ∧
    (∀ e, fs.log = some (.error e) → load_prices_log fs = ([], fs)) ∧
    (∀ m, fs.log = some (.ok m) →
      (load_prices_log fs).1 = m.filter (fun e => (fs.prices e.1).isSome) ∧
      ((∃ e ∈ m, (fs.prices e.1).isNone) →
        (load_prices_log fs).2.log
          = some (.ok (m.filter (fun e => (fs.prices e.1).isSome)))) ∧
      ((∀ e ∈ m, (fs.prices e.1).isSome) → load_prices_log fs = (m, fs))) := by
  refine ⟨fun h => by rw [load_prices_log, h], fun e h => by rw [load_prices_log, h], ?_⟩
  intro m h
  by_cases hany : m.any (fun e => (fs.prices e.1).isNone) = true
  · have hrun : load_prices_log fs =
        (m.filter (fun e => (fs.prices e.1).isSome), save_prices_log
          (m.filter (fun e => (fs.prices e.1).isSome)) fs) := by
      rw [load_prices_log, h]
      simp only [if_pos hany]
    refine ⟨by rw [hrun], fun _ => by rw [hrun]; rfl, fun hall => ?_⟩
    rcases List.any_eq_true.mp hany with ⟨e, he, hnone⟩
    have := hall e he
    simp [Option.isNone_iff_eq_none.mp hnone] at this
  · have hrun : load_prices_log fs = (m, fs) := by
      rw [load_prices_log, h]
      simp only [if_neg hany]
    have hall : ∀ e ∈ m, (fs.prices e.1).isSome := by
      intro e he
      have := List.any_eq_false.mp (Bool.not_eq_true _ ▸ hany) e he
      cases hfs : fs.prices e.1 with
      | none => rw [hfs] at this; simp at this
      | some s => simp
    refine ⟨?_, fun hex => ?_, fun _ => hrun⟩
    · rw [hrun]
      exact (List.filter_eq_self.mpr hall).symm
    · rcases hex with ⟨e, he, hnone⟩
      have := hall e he
      simp [Option.isNone_iff_eq_none.mp hnone] at this

/-- Witness for C2: an index with one live and one orphaned entry is
pruned to the live entry and rewritten. -/
theorem C2_load_prices_log_witness :
    (load_prices_log ⟨some (.ok [("AAA", 3), ("BBB", 4)]),
        fun t => if t = "AAA" then some [(3, sampleRow)] else none⟩).1
      = [("AAA", 3)] ∧
    (load_prices_log ⟨some (.ok [("AAA", 3), ("BBB", 4)]),
        fun t => if t = "AAA" then some [(3, sampleRow)] else none⟩).2.log
      = some (.ok [("AAA", 3)]) := by
  have h := C2_load_prices_log ⟨some (.ok [("AAA", 3), ("BBB", 4)]),
    fun t => if t = "AAA" then some [(3, sampleRow)] else none⟩
  have h2 := h.2.2 [("AAA", 3), ("BBB", 4)] rfl
  refine ⟨?_, ?_⟩
  · rw [h2.1]
    rfl
  · rw [h2.2.1 ⟨("BBB", 4), by decide, by decide⟩]
    rfl

/-! ### C10: load_tickers -/

/-- Claim C10: `load_tickers` is total, ignores its `tickers_path`
argument (it always reads `all_tickers_file`), returns the empty
`Ticker` frame when that file is missing, unreadable, empty, or lacks a
`Ticker` column, and always returns a frame with a `Ticker` column. -/
theorem C10_load_tickers (fsRead : String → Option (Except Unit Frame)) (p q : String) :
    (load_tickers fsRead p = load_tickers fsRead q) ∧
    (fsRead all_tickers_file = none → load_tickers fsRead p = emptyTickersFrame) ∧
    (∀ e, fsRead all_tickers_file = some (.error e) →
      load_tickers fsRead p = emptyTickersFrame) ∧
    (∀ df, fsRead all_tickers_file = some (.ok df) →
      (frameEmpty df = true ∨ "Ticker" ∉ df.cols) →
      load_tickers fsRead p = emptyTickersFrame) ∧
    ("Ticker" ∈ (load_tickers fsRead p).cols) := by
  refine ⟨rfl, fun h => by rw [load_tickers, h], fun e h => by rw [load_tickers, h],
    fun df h hbad => ?_, ?_⟩
  · have : (frameEmpty df || decide ("Ticker" ∉ df.cols)) = true := by
      rcases hbad with h1 | h2
      · simp [h1]
      · simp [h2]
    simp only [load_tickers, h]
    rw [if_pos this]
  · cases hr : fsRead all_tickers_file with
    | none => simp [load_tickers, hr, emptyTickersFrame]
    | some c =>
        cases c with
        | error e => simp [load_tickers, hr, emptyTickersFrame]
        | ok df =>
            simp only [load_tickers, hr]
            by_cases hc : (frameEmpty df || decide ("Ticker" ∉ df.cols)) = true
            · rw [if_pos hc]
              simp [emptyTickersFrame]
            · rw [if_neg hc]
              rcases Bool.or_eq_false_iff.mp (Bool.not_eq_true _ ▸ hc) with ⟨_, h2⟩
              simpa using of_decide_eq_false h2

/-- Witness for C10: path-independence on a state whose registry file is
missing, and the resulting frame still has the `Ticker` column. -/
theorem C10_load_tickers_witness :
    (load_tickers (fun _ => none) "a/b.csv" = load_tickers (fun _ => none) "c.csv") ∧
    (load_tickers (fun _ => none) "a/b.csv" = emptyTickersFrame) ∧
    ("Ticker" ∈ (load_tickers (fun _ => none) "a/b.csv").cols) := by
  have h := C10_load_tickers (fun _ => none) "a/b.csv" "c.csv"
  exact ⟨h.1, h.2.1 rfl, h.2.2.2.2⟩

/-! ### Forward-fill lemmas -/

theorem closeAt_cons_zero (d : Int) (r : Row) (rest : Series) :
    closeAt ((d, r) :: rest) 0 = r.close := rfl

theorem closeAt_cons_succ (d : Int) (r : Row) (rest : Series) (j : ℕ) :
    closeAt ((d, r) :: rest) (j + 1) = closeAt rest j := rfl

theorem closeAt_all_none {s : Series} (h : ∀ x ∈ s, x.2.close = none) (i : ℕ) :
    closeAt s i = none := by
  induction s generalizing i with
  | nil => cases i <;> rfl
  | cons x rest ih =>
      cases i with
      | zero => exact h x (List.mem_cons_self x rest)
      | succ j =>
          rw [show x = (x.1, x.2) from rfl, closeAt_cons_succ]
          exact ih (fun y hy => h y (List.mem_cons_of_mem x hy)) j

theorem closeAt_ffillAux_present {rows : Series} {j : ℕ} {v : ℚ} (prev : Row)
    (h : closeAt rows j = some v) :
    closeAt (ffillAux prev rows) j = some v := by
  induction rows generalizing prev j with
  | nil => cases j <;> cases h
  | cons x rest ih =>
      rcases x with ⟨d, r⟩
      cases j with
      | zero =>
          rw [closeAt_cons_zero] at h
          rw [ffillAux, closeAt_cons_zero]
          show fill2 prev.close r.close = some v
          rw [h]
          rfl
      | succ j =>
          rw [closeAt_cons_succ] at h
          rw [ffillAux, closeAt_cons_succ]
          exact ih _ h

theorem closeAt_ffillAux_step {rows : Series} {i : ℕ} (prev : Row)
    (hlen : i + 1 < rows.length) (hnone : closeAt rows (i + 1) = none) :
    closeAt (ffillAux prev rows) (i + 1) = closeAt (ffillAux prev rows) i := by
  induction rows generalizing prev i with
  | nil => simp at hlen
  | cons x rest ih =>
      rcases x with ⟨d, r⟩
      rw [closeAt_cons_succ] at hnone
      cases i with
      | zero =>
          cases rest with
          | nil => simp at hlen
          | cons y rest2 =>
              rcases y with ⟨d2, r2⟩
              rw [closeAt_cons_zero] at hnone
              rw [ffillAux, closeAt_cons_succ, closeAt_cons_zero, ffillAux,
                closeAt_cons_zero]
              show fill2 (ffillRow prev r).close r2.close = (ffillRow prev r).close
              rw [hnone]
              rfl
      | succ k =>
          rw [ffillAux, closeAt_cons_succ, closeAt_cons_succ]
          exact ih _ (by simpa using hlen) hnone

theorem ffillAux_all_none {tail : Series} (prev : Row) {i : ℕ}
    (h : ∀ x ∈ tail, x.2.close = none) (hi : i < tail.length) :
    closeAt (ffillAux prev tail) i = prev.close := by
  induction tail generalizing prev i with
  | nil => simp at hi
  | cons x rest ih =>
      rcases x with ⟨d, r⟩
      have hr : r.close = none := h (d, r) (List.mem_cons_self _ rest)
      have hfill : (ffillRow prev r).close = prev.close := by
        show fill2 prev.close r.close = prev.close
        rw [hr]
        rfl
      cases i with
      | zero => rw [ffillAux, closeAt_cons_zero, hfill]
      | succ j =>
          rw [ffillAux, closeAt_cons_succ]
          rw [ih _ (fun y hy => h y (List.mem_cons_of_mem _ hy)) (by simpa using hi)]
          exact hfill

/-! ### C5: the forward fill has no run-length bound -/

/-- Claim C5 is false as stated: there is no bound `B` such that a run of
absent close values longer than `B` in the cleaned batch stays absent
beyond the bound in the output of `fetch_prices` — for any candidate
bound, a batch with one present close followed by `B + 1` absent closes
is filled through all `B + 1` positions (`data.ffill()` has no `limit`). -/
theorem C5_counterexample :
    ¬ ∃ B : ℕ, ∀ (raw : Series) (i : ℕ), B < i →
        (∀ j, i - B ≤ j → j ≤ i → closeAt (cleanStage raw) j = none) →
        closeAt (fetch_prices (FetchOut.ok raw)) i = none := by
  rintro ⟨B, h⟩
  -- the batch: one present close at date 0, then B+1 absent closes
  have htail : ∀ x ∈ (List.range (B + 1)).map (fun (i : ℕ) => ((i : Int) + 1, rowC none)),
      x.2.close = none := by
    intro x hx
    rcases List.mem_map.mp hx with ⟨k, _, rfl⟩
    rfl
  -- masking does not change this batch
  have hmask : (runBatch B).map (fun x => (x.1, maskVolume (maskPrices x.2)))
      = runBatch B := by
    rw [runBatch, List.map_cons, List.map_map]
    have hhead : maskVolume (maskPrices (rowC (some 5))) = rowC (some 5) := by decide
    simp only [hhead]
    rfl
  -- the batch is already sorted by date
  have hsorted : List.Sorted (fun a b => a.1 ≤ b.1) (runBatch B) := by
    rw [runBatch, List.sorted_cons]
    constructor
    · intro b hb
      rcases List.mem_map.mp hb with ⟨k, _, rfl⟩
      show (0 : Int) ≤ (k : Int) + 1
      omega
    · rw [List.Sorted, List.pairwise_map]
      apply (List.pairwise_lt_range (B + 1)).imp
      intro a b hab
      show (a : Int) + 1 ≤ (b : Int) + 1
      omega
  have hclean : cleanStage (runBatch B) = runBatch B := by
    rw [cleanStage, hmask, sortByDate, List.Sorted.insertionSort_eq hsorted]
  -- the hypothesis of the claimed bound holds at position B+1 ...
  have hrun : ∀ j, B + 1 - B ≤ j → j ≤ B + 1 → closeAt (cleanStage (runBatch B)) j = none := by
    intro j h1 h2
    rw [hclean]
    rcases Nat.exists_eq_add_of_le h1 with ⟨k, hk⟩
    have hj : j = k + 1 := by omega
    rw [hj, runBatch, closeAt_cons_succ]
    exact closeAt_all_none htail k
  -- ... but the output close there is the filled value 5, not absent
  have hout := h (runBatch B) (B + 1) (by omega) hrun
  have hne : runBatch B ≠ [] := by rw [runBatch]; exact List.cons_ne_nil _ _
  rw [fetch_prices, if_neg (by simpa using hne), hclean, runBatch, ffill, ffillAux,
    closeAt_cons_succ] at hout
  have h5 : (ffillRow emptyRow (rowC (some 5))).close = some 5 := rfl
  rw [ffillAux_all_none _ htail (by simp), h5] at hout
  cases hout

theorem ffill_fills_run {rows : Series} {j : ℕ} {v : ℚ}
    (hj : closeAt rows j = some v) :
    ∀ n, j + n < rows.length → (∀ k, j < k → k ≤ j + n → closeAt rows k = none) →
    closeAt (ffill rows) (j + n) = some v := by
  intro n
  induction n with
  | zero => exact fun _ _ => closeAt_ffillAux_present emptyRow hj
  | succ m ih =>
      intro hlen hmid
      have heq : j + (m + 1) = (j + m) + 1 := by omega
      rw [heq] at hlen hmid ⊢
      rw [ffill, closeAt_ffillAux_step emptyRow hlen (hmid (j + m + 1) (by omega) (by omega))]
      exact ih (by omega) (fun k hk1 hk2 => hmid k hk1 (by omega))

/-- Claim C5 amended: the forward fill of `fetch_prices` is unbounded —
after a present close value, an arbitrarily long run of absent closes is
filled end to end with that value (the last present value before the
run), so no cell of the run remains absent. -/
theorem C5_fill_unbounded (rows : Series) (i j : ℕ) (v : ℚ) (hji : j ≤ i)
    (hi : i < rows.length) (hj : closeAt rows j = some v)
    (hmid : ∀ k, j < k → k ≤ i → closeAt rows k = none) :
    closeAt (ffill rows) i = some v := by
  have heq : i = j + (i - j) := by omega
  rw [heq] at hi hmid ⊢
  exact ffill_fills_run hj (i - j) hi hmid

/-- Witness for the amended C5: a present close followed by two absent
closes is filled through both. -/
theorem C5_fill_unbounded_witness :
    closeAt (ffill [(0, rowC (some 2)), (1, rowC none), (2, rowC none)]) 2 = some 2 :=
  C5_fill_unbounded [(0, rowC (some 2)), (1, rowC none), (2, rowC none)] 2 0 2
    (by omega) (by decide) (by decide) (fun k h1 h2 => by
      interval_cases k <;> decide)

/-! ### C6: anomaly masking versus the returned batch -/

/-- Claim C6 is false as stated: in the batch `[(0, r6a), (1, r6b)]`,
row 1 has close 0 and volume −5; both cells are masked, but the
subsequent forward fill refills them from row 0, so in the returned batch
they are not absent (close 5 and volume 7). -/
theorem C6_counterexample :
    r6b.close = some 0 ∧ r6b.volume = some (-5) ∧
    fetch_prices (FetchOut.ok [(0, r6a), (1, r6b)])
      = [(0, r6a), (1, ⟨some 10, some 12, some 9, some 5, some 7, some 0, some 0⟩)] ∧
    closeAt (fetch_prices (FetchOut.ok [(0, r6a), (1, r6b)])) 1 ≠ none ∧
    volAt (fetch_prices (FetchOut.ok [(0, r6a), (1, r6b)])) 1 ≠ none := by
  decide

/-- Claim C6 amended: the masking step itself sets exactly the price
cells `≤ 0` and the volume cells `< 0` to absent — zero volume and all
other cells are untouched — and `fetch_prices` then forward-fills the
masked batch, so a masked cell is absent in the returned batch only when
no earlier row supplies a value. -/
theorem C6_mask_semantics (v : ℚ) (r : Row) (rows : Series) :
    maskPrice (some v) = (if v ≤ 0 then none else some v) ∧
    maskPrice none = none ∧
    (maskVolume (maskPrices r)).open_ = maskPrice r.open_ ∧
    (maskVolume (maskPrices r)).high = maskPrice r.high ∧
    (maskVolume (maskPrices r)).low = maskPrice r.low ∧
    (maskVolume (maskPrices r)).close = maskPrice r.close ∧
    (maskVolume (maskPrices r)).volume
      = (match r.volume with
         | some u => if u < 0 then none else some u
         | none => none) ∧
    (maskVolume (maskPrices { r with volume := some 0 })).volume = some 0 ∧
    (maskVolume (maskPrices r)).dividends = r.dividends ∧
    (maskVolume (maskPrices r)).stockSplits = r.stockSplits ∧
    fetch_prices (FetchOut.ok rows)
      = (if rows.isEmpty then [] else ffill (cleanStage rows)) := by
  refine ⟨rfl, rfl, rfl, rfl, rfl, rfl, rfl, ?_, rfl, rfl, rfl⟩
  show (if (0 : Int) < 0 then none else some (0 : Int)) = some 0
  rfl

/-! ### C8: TTL gating of the metadata refresh -/

theorem metaLoop_fetched (now : Int) (fOK : String → Bool) (existing : MetaTable)
    (l : List String) :
    (metaLoop now fOK existing l).1 = l.filter (fun t => !(isFresh existing now t)) := by
  induction l with
  | nil => rfl
  | cons t rest ih =>
      rw [metaLoop, List.filter_cons]
      by_cases hf : isFresh existing now t = true
      · rw [if_pos hf, ih, hf]
        rfl
      · rw [if_neg hf]
        show t :: (metaLoop now fOK existing rest).1 = _
        rw [ih]
        rw [Bool.not_eq_true] at hf
        rw [hf]
        rfl

theorem metaLoop_new_stale (now : Int) (fOK : String → Bool) (existing : MetaTable)
    (l : List String) :
    ∀ e ∈ (metaLoop now fOK existing l).2, isFresh existing now e.1 = false := by
  induction l with
  | nil => intro e he; cases he
  | cons t rest ih =>
      intro e he
      rw [metaLoop] at he
      by_cases hf : isFresh existing now t = true
      · rw [if_pos hf] at he
        exact ih e he
      · rw [if_neg hf] at he
        rcases List.mem_append.mp he with h1 | h2
        · by_cases hok : fOK t = true
          · rw [if_pos hok] at h1
            rcases List.mem_singleton.mp h1 with rfl
            simpa using hf
          · rw [if_neg hok] at h1
            cases h1
        · exact ih e h2

theorem update_meta_fetched (now : Int) (fOK : String → Bool)
    (file : Option (Except Unit MetaTable)) (tickers : List String) :
    (update_stock_metadata now fOK file tickers).1
      = (metaLoop now fOK (readMetaTable file) tickers).1 := by
  simp only [update_stock_metadata]
  split
  · rfl
  · split <;> rfl

/-- Claim C8: in `update_stock_metadata`, an entity whose first matching
record has a parseable `lastUpdated` strictly less than 7 days old is not
fetched and its record is unchanged in the resulting table; an entity
failing that freshness test (stale by 7+ days, missing record, NaN or
unparseable date) is fetched; and a missing snapshot table makes every
requested entity fetched rather than raising. -/
theorem C8_ttl_gating (now : Int) (fOK : String → Bool)
    (file : Option (Except Unit MetaTable)) (tickers : List String) (t : String)
    (ht : t ∈ tickers)
    (hnodup : ((readMetaTable file).map Prod.fst).Nodup) :
    (isFresh (readMetaTable file) now t = true →
      t ∉ (update_stock_metadata now fOK file tickers).1 ∧
      lookupKey t (update_stock_metadata now fOK file tickers).2
        = lookupKey t (readMetaTable file)) ∧
    (isFresh (readMetaTable file) now t = false →
      t ∈ (update_stock_metadata now fOK file tickers).1) ∧
    (file = none → (update_stock_metadata now fOK file tickers).1 = tickers) := by
  set existing := readMetaTable file with hex
  refine ⟨fun hf => ⟨?_, ?_⟩, fun hf => ?_, fun hnone => ?_⟩
  · rw [update_meta_fetched, metaLoop_fetched]
    intro hmem
    have := List.of_mem_filter hmem
    rw [hf] at this
    cases this
  · -- the fresh record survives the upsert untouched
    have hnew := metaLoop_new_stale now fOK existing tickers
    -- the fresh ticker has a record in `existing`
    obtain ⟨r, hfind⟩ : ∃ r, existing.find? (fun r => r.1 = t) = some r := by
      rw [isFresh] at hf
      rcases hfr : existing.find? (fun r => r.1 = t) with _ | r
      · rw [hfr] at hf
        cases hf
      · exact ⟨r, hfr⟩
    have hrt : r.1 = t := by simpa using List.find?_some hfind
    have hrmem : r ∈ existing := List.mem_of_find?_eq_some hfind
    have hmem : (t, r.2) ∈ existing := by
      rw [← hrt]
      exact hrmem
    have hlook : lookupKey t existing = some r.2 := lookupKey_eq_of_mem hnodup hmem
    simp only [update_stock_metadata, ← hex]
    set N := (metaLoop now fOK existing tickers).2 with hN
    split
    · rfl
    · split
      · rename_i hne hemp
        rw [List.isEmpty_iff] at hemp
        rw [hemp] at hmem
        cases hmem
      · -- combined table: the unique existing record is the last with key t
        rcases List.append_of_mem hmem with ⟨e1, e2, hsplit⟩
        have hkeys : (e1.map Prod.fst ++ t :: e2.map Prod.fst).Nodup := by
          rw [hsplit] at hnodup
          simpa using hnodup
        have ht2 : t ∉ e2.map Prod.fst :=
          (List.nodup_cons.mp (List.Nodup.of_append_right hkeys)).1
        have hlast : ∀ b ∈ e2 ++ N, b.1 ≠ (t, r.2).1 := by
          intro b hb hbt
          have hb1 : b.1 = t := hbt
          rcases List.mem_append.mp hb with h1 | h2
          · apply ht2
            rw [← hb1]
            exact List.mem_map_of_mem Prod.fst h1
          · have hst := hnew b (hN ▸ h2)
            rw [hb1, hf] at hst
            cases hst
        have hdrop : (t, r.2) ∈ dropDupKeepLast Prod.fst (existing ++ N) := by
          rw [hsplit, List.append_assoc]
          exact mem_dropDup_of_last Prod.fst e1 _ _ hlast
        rw [lookupKey_eq_of_mem (keys_nodup_dropDup Prod.fst _) hdrop, hlook]
  · rw [update_meta_fetched, metaLoop_fetched]
    apply List.mem_filter.mpr
    exact ⟨ht, by rw [hf]; rfl⟩
  · rw [update_meta_fetched, metaLoop_fetched]
    have : ∀ x ∈ tickers, (!(isFresh existing now x)) = true := by
      intro x _
      rw [hex, hnone]
      rfl
    exact List.filter_eq_self.mpr this

/-- Witness for C8: with `now = 100`, a record last updated 3 days ago is
skipped and kept, one last updated 8 days ago is refetched. -/
theorem C8_ttl_gating_witness :
    ("AAA" ∉ (update_stock_metadata 100 (fun _ => true)
        (some (.ok [("AAA", Cell.date 97), ("BBB", Cell.date 92)])) ["AAA", "BBB"]).1 ∧
      lookupKey "AAA" (update_stock_metadata 100 (fun _ => true)
        (some (.ok [("AAA", Cell.date 97), ("BBB", Cell.date 92)])) ["AAA", "BBB"]).2
        = some (Cell.date 97)) ∧
    "BBB" ∈ (update_stock_metadata 100 (fun _ => true)
        (some (.ok [("AAA", Cell.date 97), ("BBB", Cell.date 92)])) ["AAA", "BBB"]).1 := by
  have hA := C8_ttl_gating 100 (fun _ => true)
    (some (.ok [("AAA", Cell.date 97), ("BBB", Cell.date 92)])) ["AAA", "BBB"] "AAA"
    (by decide) (by decide)
  have hB := C8_ttl_gating 100 (fun _ => true)
    (some (.ok [("AAA", Cell.date 97), ("BBB", Cell.date 92)])) ["AAA", "BBB"] "BBB"
    (by decide) (by decide)
  have h1 := hA.1 (by decide)
  refine ⟨⟨h1.1, ?_⟩, hB.2.1 (by decide)⟩
  rw [h1.2]
  rfl

/-! ### C7: the removal cascade -/

/-- No readable `dim_ticker.csv` row remains for the ticker. -/
def dimClean (d : Option (Except Unit MetaTable)) (t : String) : Prop :=
  ∀ rows, d = some (.ok rows) → ∀ r ∈ rows, r.1 ≠ t

/-- No readable prices-log entry remains for the ticker. -/
def logClean (lg : Option (Except Unit (List (String × Int)))) (t : String) : Prop :=
  ∀ m, lg = some (.ok m) → ∀ e ∈ m, e.1 ≠ t

theorem metaBlock_clean_self {fl : RFail} {fs : CoreFS} {t : String}
    (hfail : fl.metaStep t = false) : dimClean (metaBlock fl fs t) t := by
  intro rows h r hr
  rw [metaBlock, hfail] at h
  simp only [Bool.false_eq_true, if_false] at h
  split at h
  · rename_i rows0 heq
    split at h
    · rename_i hany
      injection h with h
      injection h with h
      rw [← h] at hr
      simpa using List.of_mem_filter hr
    · rename_i hany
      rw [heq] at h
      injection h with h
      injection h with h
      rw [← h] at hr
      have := List.any_eq_false.mp (Bool.not_eq_true _ ▸ hany) r hr
      simpa using this
  · rename_i hx
    exact (hx rows h).elim

theorem metaBlock_clean_pres {fl : RFail} {fs : CoreFS} {t t' : String}
    (hclean : dimClean fs.dim t) : dimClean (metaBlock fl fs t') t := by
  intro rows h r hr
  rw [metaBlock] at h
  split at h
  · exact hclean rows h r hr
  · split at h
    · rename_i rows0 heq
      split at h
      · rename_i hany
        injection h with h
        injection h with h
        rw [← h] at hr
        exact hclean rows0 heq r (List.mem_of_mem_filter hr)
      · exact hclean rows h r hr
    · exact hclean rows h r hr

theorem priceBlockF_false_self {fl : RFail} {fs : CoreFS} {t : String}
    (hfail : fl.priceStep t = false) : priceBlockF fl fs t t = false := by
  rw [priceBlockF, hfail]
  simp only [Bool.false_eq_true, if_false]
  by_cases hp : fs.pricesF t = true
  · rw [if_pos hp]
    simp
  · rw [if_neg hp]
    simpa using hp

theorem priceBlockF_false_pres {fl : RFail} {fs : CoreFS} {t t' : String}
    (h : fs.pricesF t = false) : priceBlockF fl fs t' t = false := by
  rw [priceBlockF]
  split
  · exact h
  · split
    · by_cases ht : t = t'
      · simp [ht]
      · simp [ht, h]
    · exact h

theorem finBlockF_false_self {fl : RFail} {fs : CoreFS} {t : String}
    (hfail : fl.finStep t = false) : finBlockF fl fs t t = false := by
  rw [finBlockF, hfail]
  simp only [Bool.false_eq_true, if_false]
  by_cases hp : fs.finF t = true
  · rw [if_pos hp]
    simp
  · rw [if_neg hp]
    simpa using hp

theorem finBlockF_false_pres {fl : RFail} {fs : CoreFS} {t t' : String}
    (h : fs.finF t = false) : finBlockF fl fs t' t = false := by
  rw [finBlockF]
  split
  · exact h
  · split
    · by_cases ht : t = t'
      · simp [ht]
      · simp [ht, h]
    · exact h

theorem foldl_removeOne_log (fl : RFail) (l : List String) (fs : CoreFS) :
    (l.foldl (removeOne fl) fs).log = fs.log := by
  induction l generalizing fs with
  | nil => rfl
  | cons x xs ih => exact (ih (removeOne fl fs x)).trans rfl

theorem foldl_removeOne_pricesF (fl : RFail) (l : List String) (fs : CoreFS)
    (t : String) (hfail : fl.priceStep t = false)
    (h : t ∈ l ∨ fs.pricesF t = false) :
    (l.foldl (removeOne fl) fs).pricesF t = false := by
  induction l generalizing fs with
  | nil =>
      rcases h with h | h
      · cases h
      · exact h
  | cons x xs ih =>
      rw [List.foldl_cons]
      rcases h with h | h
      · rcases List.mem_cons.mp h with rfl | hxs
        · exact ih _ (Or.inr (priceBlockF_false_self hfail))
        · exact ih _ (Or.inl hxs)
      · exact ih _ (Or.inr (priceBlockF_false_pres h))

theorem foldl_removeOne_finF (fl : RFail) (l : List String) (fs : CoreFS)
    (t : String) (hfail : fl.finStep t = false)
    (h : t ∈ l ∨ fs.finF t = false) :
    (l.foldl (removeOne fl) fs).finF t = false := by
  induction l generalizing fs with
  | nil =>
      rcases h with h | h
      · cases h
      · exact h
  | cons x xs ih =>
      rw [List.foldl_cons]
      rcases h with h | h
      · rcases List.mem_cons.mp h with rfl | hxs
        · exact ih _ (Or.inr (finBlockF_false_self hfail))
        · exact ih _ (Or.inl hxs)
      · exact ih _ (Or.inr (finBlockF_false_pres h))

theorem foldl_removeOne_dim (fl : RFail) (l : List String) (fs : CoreFS)
    (t : String) (hfail : fl.metaStep t = false)
    (h : t ∈ l ∨ dimClean fs.dim t) :
    dimClean (l.foldl (removeOne fl) fs).dim t := by
  induction l generalizing fs with
  | nil =>
      rcases h with h | h
      · cases h
      · exact h
  | cons x xs ih =>
      rw [List.foldl_cons]
      rcases h with h | h
      · rcases List.mem_cons.mp h with rfl | hxs
        · exact ih _ (Or.inr (metaBlock_clean_self hfail))
        · exact ih _ (Or.inl hxs)
      · exact ih _ (Or.inr (metaBlock_clean_pres h))

theorem pruneLogFS_clean (fl : RFail) (valid : List String) (fs : CoreFS)
    (t : String) (hfail : fl.logStep = false) (hv : t ∈ valid) :
    logClean (pruneLogFS fl valid fs).log t := by
  intro m hm e he het
  rw [pruneLogFS] at hm
  split at hm
  · rename_i hnone
    rw [hnone] at hm
    cases hm
  · rename_i content heq
    rw [hfail] at hm
    simp only [Bool.false_eq_true, if_false] at hm
    split at hm
    · -- the unreadable-log branch returns the state unchanged
      rename_i er
      rw [heq] at hm
      injection hm with hm
      cases hm
    · rename_i m0
      split at hm
      · rename_i hany
        simp only at hm
        injection hm with hm
        injection hm with hm
        rw [← hm] at he
        have := List.of_mem_filter he
        rw [het] at this
        simp [hv] at this
      · rename_i hany
        rw [heq] at hm
        injection hm with hm
        injection hm with hm
        rw [← hm] at he
        have := List.any_eq_false.mp (Bool.not_eq_true _ ▸ hany) e he
        rw [het] at this
        simp [hv] at this

/-- Claim C7 is false as stated: removing `XYZ` attempts the cascade in
the order index-prune, attribute-row removal, prices-file delete,
financials-file delete — the attribute row is removed before the storage
objects, not after them as the claim's (b) < (c) < (d) order requires. -/
theorem C7_counterexample :
    (remove_tickers ["XYZ"] ["XYZ"] noRFail fsC7).2.2
      = [RAct.pruneLog, RAct.metaRow "XYZ", RAct.priceFile "XYZ", RAct.finFile "XYZ"] ∧
    List.indexOf (RAct.metaRow "XYZ") (remove_tickers ["XYZ"] ["XYZ"] noRFail fsC7).2.2
      < List.indexOf (RAct.priceFile "XYZ") (remove_tickers ["XYZ"] ["XYZ"] noRFail fsC7).2.2 := by
  decide

/-- Claim C7 amended: the cascade runs synchronously in the order
(a) prune-and-persist the index, then per entity (b) remove the
attribute row, (c) delete the time-series file, (d) delete the financials
file; each step's failure is caught and blocks neither the other steps'
attempts (the trace is failure-independent) nor their effects, and for
every step that does not fail, no index entry / storage file / attribute
row remains for the removed entity afterwards, even if its storage was
absent beforehand. -/
theorem C7_cascade_order (df toRemove : List String) (fl : RFail) (fs : CoreFS)
    (t : String) (ht : t ∈ toRemove) (hd : t ∈ df) :
    (remove_tickers df toRemove fl fs).2.2
      = pruneLogTrace fs
        ++ (toRemove.filter (fun x => decide (x ∈ df))).flatMap
            (fun x => [RAct.metaRow x, RAct.priceFile x, RAct.finFile x]) ∧
    (fl.priceStep t = false → (remove_tickers df toRemove fl fs).2.1.pricesF t = false) ∧
    (fl.finStep t = false → (remove_tickers df toRemove fl fs).2.1.finF t = false) ∧
    (fl.metaStep t = false → dimClean (remove_tickers df toRemove fl fs).2.1.dim t) ∧
    (fl.logStep = false → logClean (remove_tickers df toRemove fl fs).2.1.log t) := by
  have hv : t ∈ toRemove.filter (fun x => decide (x ∈ df)) :=
    List.mem_filter.mpr ⟨ht, by simpa using hd⟩
  have hne : (toRemove.filter (fun x => decide (x ∈ df))).isEmpty = false := by
    rcases hh : toRemove.filter (fun x => decide (x ∈ df)) with _ | ⟨a, l⟩
    · rw [hh] at hv
      cases hv
    · rfl
  have hrun : remove_tickers df toRemove fl fs
      = (df.filter (fun x => decide (x ∉ toRemove.filter (fun x => decide (x ∈ df)))),
         (toRemove.filter (fun x => decide (x ∈ df))).foldl (removeOne fl)
           (pruneLogFS fl (toRemove.filter (fun x => decide (x ∈ df))) fs),
         pruneLogTrace fs
           ++ (toRemove.filter (fun x => decide (x ∈ df))).flatMap
               (fun x => [RAct.metaRow x, RAct.priceFile x, RAct.finFile x])) := by
    rw [remove_tickers]
    rw [if_neg (by rw [hne]; exact Bool.false_ne_true)]
  refine ⟨?_, fun hp => ?_, fun hf => ?_, fun hm => ?_, fun hl => ?_⟩
  · rw [hrun]
  · rw [hrun]
    exact foldl_removeOne_pricesF fl _ _ t hp (Or.inl hv)
  · rw [hrun]
    exact foldl_removeOne_finF fl _ _ t hf (Or.inl hv)
  · rw [hrun]
    exact foldl_removeOne_dim fl _ _ t hm (Or.inl hv)
  · rw [hrun]
    intro m hm2
    rw [foldl_removeOne_log] at hm2
    exact pruneLogFS_clean fl _ fs t hl hv m hm2

/-- Witness for the amended C7 on the concrete `XYZ` state with no
failures: the trace has the program order and nothing of `XYZ` remains. -/
theorem C7_cascade_order_witness :
    (remove_tickers ["XYZ"] ["XYZ"] noRFail fsC7).2.2
      = [RAct.pruneLog, RAct.metaRow "XYZ", RAct.priceFile "XYZ", RAct.finFile "XYZ"] ∧
    (remove_tickers ["XYZ"] ["XYZ"] noRFail fsC7).2.1.pricesF "XYZ" = false ∧
    (remove_tickers ["XYZ"] ["XYZ"] noRFail fsC7).2.1.finF "XYZ" = false ∧
    dimClean (remove_tickers ["XYZ"] ["XYZ"] noRFail fsC7).2.1.dim "XYZ" ∧
    logClean (remove_tickers ["XYZ"] ["XYZ"] noRFail fsC7).2.1.log "XYZ" := by
  have h := C7_cascade_order ["XYZ"] ["XYZ"] noRFail fsC7 "XYZ" (by decide) (by decide)
  exact ⟨h.1, h.2.1 rfl, h.2.2.1 rfl, h.2.2.2.1 rfl, h.2.2.2.2 rfl⟩

/-! ### C9: the persisted value invariant -/

theorem priceOK_mask (p : Option ℚ) : priceOK (maskPrice p) := by
  intro v hv
  rcases p with _ | u
  · cases hv
  · rw [maskPrice] at hv
    by_cases hu : u ≤ 0
    · rw [if_pos hu] at hv
      cases hv
    · rw [if_neg hu] at hv
      injection hv with hv
      rw [← hv]
      exact lt_of_not_le hu

theorem rowOK_mask (r : Row) : rowOK (maskVolume (maskPrices r)) := by
  refine ⟨priceOK_mask r.open_, priceOK_mask r.high, priceOK_mask r.low,
    priceOK_mask r.close, ?_⟩
  intro v hv
  have hv2 : (match r.volume with
              | some u => if u < 0 then none else some u
              | none => none) = some v := hv
  split at hv2
  · rename_i u heq
    by_cases hu : u < 0
    · rw [if_pos hu] at hv2
      cases hv2
    · rw [if_neg hu] at hv2
      injection hv2 with hv2
      rw [← hv2]
      exact le_of_not_lt hu
  · cases hv2

theorem fill2_OK {α : Type} (P : Option α → Prop) (hnone : P none)
    {p c : Option α} (hp : P p) (hc : P c) : P (fill2 p c) := by
  rcases c with _ | u
  · exact hp
  · exact hc

theorem rowOK_ffillRow {prev cur : Row} (hp : rowOK prev) (hc : rowOK cur) :
    rowOK (ffillRow prev cur) := by
  refine ⟨?_, ?_, ?_, ?_, ?_⟩
  · exact fill2_OK priceOK (by intro v hv; cases hv) hp.1 hc.1
  · exact fill2_OK priceOK (by intro v hv; cases hv) hp.2.1 hc.2.1
  · exact fill2_OK priceOK (by intro v hv; cases hv) hp.2.2.1 hc.2.2.1
  · exact fill2_OK priceOK (by intro v hv; cases hv) hp.2.2.2.1 hc.2.2.2.1
  · exact fill2_OK volOK (by intro v hv; cases hv) hp.2.2.2.2 hc.2.2.2.2

theorem rowOK_emptyRow : rowOK emptyRow := by
  refine ⟨?_, ?_, ?_, ?_, ?_⟩ <;> intro v hv <;> cases hv

theorem seriesOK_ffillAux {s : Series} {prev : Row} (hp : rowOK prev)
    (hs : seriesOK s) : seriesOK (ffillAux prev s) := by
  induction s generalizing prev with
  | nil => intro x hx; cases hx
  | cons a rest ih =>
      rcases a with ⟨d, r⟩
      have hr : rowOK r := hs (d, r) (List.mem_cons_self _ _)
      have hfr : rowOK (ffillRow prev r) := rowOK_ffillRow hp hr
      intro x hx
      rw [ffillAux] at hx
      rcases List.mem_cons.mp hx with rfl | hx2
      · exact hfr
      · exact ih hfr (fun y hy => hs y (List.mem_cons_of_mem _ hy)) x hx2

theorem seriesOK_fetch (out : FetchOut) : seriesOK (fetch_prices out) := by
  rcases out with _ | rows
  · intro x hx
    cases hx
  · rw [fetch_prices]
    by_cases he : rows.isEmpty = true
    · rw [if_pos he]
      intro x hx
      cases hx
    · rw [if_neg he]
      apply seriesOK_ffillAux rowOK_emptyRow
      intro x hx
      rw [cleanStage, sortByDate] at hx
      have hx2 : x ∈ (rows.map (fun x => (x.1, maskVolume (maskPrices x.2)))) :=
        (List.perm_insertionSort (fun a b => a.1 ≤ b.1) _).mem_iff.mp hx
      rcases List.mem_map.mp hx2 with ⟨y, _, rfl⟩
      exact rowOK_mask y.2

theorem seriesOK_merge {e n : Series} {c : Int} (he : seriesOK e) (hn : seriesOK n) :
    seriesOK (mergeSeries e n c) := by
  intro x hx
  have hx2 := List.mem_of_mem_filter (mem_of_mem_dropDup Prod.fst hx)
  rcases List.mem_append.mp hx2 with h1 | h2
  · exact he x h1
  · exact hn x h2

theorem seriesOK_schemaEnforce {s : Series} (hs : seriesOK s) :
    seriesOK (schemaEnforce s) := by
  intro x hx
  rcases List.mem_map.mp hx with ⟨y, hy, rfl⟩
  have hr := hs y hy
  refine ⟨hr.1, hr.2.1, hr.2.2.1, hr.2.2.2.1, ?_⟩
  intro v hv
  have hv2 : some (y.2.volume.getD 0) = some v := hv
  injection hv2 with hv2
  rcases hu : y.2.volume with _ | u
  · rw [hu] at hv2
    simp at hv2
    omega
  · rw [hu] at hv2
    simp at hv2
    rw [← hv2]
    exact hr.2.2.2.2 u hu

/-- The value invariant of the in-flight pass state. -/
def passOK (st : PassSt) : Prop := pricesOK st.prices

theorem resolveLast_prices (st : PassSt) (t : String) :
    (resolveLast st t).2.prices = st.prices := by
  rw [resolveLast]
  split
  · rfl
  · split
    · split
      · rfl
      · rfl
    · rfl

theorem stepTicker_OK {today cutoff : Int} {oracle : String → Int → FetchOut}
    {st : PassSt} {t : String} (h : passOK st) :
    passOK (stepTicker today cutoff oracle st t) := by
  have h2 : passOK (resolveLast st t).2 := by
    rw [passOK, resolveLast_prices]
    exact h
  rw [stepTicker]
  generalize (resolveLast st t) = p at h2 ⊢
  rcases p with ⟨ld, st'⟩
  simp only [fetchPersist]
  split
  · split
    · split
      · exact h2
      · rename_i hne
        intro t' s' hs'
        simp only [setPrice] at hs'
        by_cases ht' : t' = t
        · rw [if_pos ht'] at hs'
          injection hs' with hs'
          rw [← hs']
          apply seriesOK_schemaEnforce
          split
          · exact seriesOK_fetch _
          · apply seriesOK_merge _ (seriesOK_fetch _)
            rcases hp : st'.prices t with _ | s0
            · intro x hx
              cases hx
            · exact h2 t s0 hp
        · rw [if_neg ht'] at hs'
          exact h2 t' s' hs'
    · exact h2
  · exact h2

theorem load_prices_log_prices (fs : FS) : (load_prices_log fs).2.prices = fs.prices := by
  rw [load_prices_log]
  split
  · rfl
  · rfl
  · split
    · rfl
    · rfl

theorem foldl_stepTicker_OK (today cutoff : Int) (oracle : String → Int → FetchOut)
    (l : List String) (st : PassSt) (h : passOK st) :
    passOK (l.foldl (stepTicker today cutoff oracle) st) := by
  induction l generalizing st with
  | nil => exact h
  | cons x xs ih => exact ih _ (stepTicker_OK h)

/-- Claim C9: a pass of `update_stock_prices` preserves the value
invariant of the persisted store — if every on-disk series has all price
fields positive-or-absent and volume non-negative-or-absent, the same
holds after the pass.  Freshly fetched deltas satisfy it outright
(masking plus forward fill), merged series inherit it, and the schema
enforcement step keeps prices float and makes volume a non-negative
integer (`fillna(0).astype('int64')`). -/
theorem C9_value_invariant (today cutoff : Int) (oracle : String → Int → FetchOut)
    (tickers : List String) (fs : FS) (h : pricesOK fs.prices) :
    pricesOK (update_stock_prices today cutoff oracle tickers fs).prices := by
  rw [update_stock_prices]
  have hst : passOK (tickers.foldl (stepTicker today cutoff oracle)
      ⟨(load_prices_log fs).2.prices, (load_prices_log fs).1, false⟩) := by
    apply foldl_stepTicker_OK
    rw [passOK]
    show pricesOK (load_prices_log fs).2.prices
    rw [load_prices_log_prices]
    exact h
  split
  · exact hst
  · exact hst

/-- Witness for C9 on a concrete state whose only series is valid. -/
theorem C9_value_invariant_witness :
    pricesOK (update_stock_prices 100 50 (fun _ _ => FetchOut.err) ["AAA"] fsC3).prices := by
  apply C9_value_invariant
  intro t s hs
  have hs2 : (if t = "AAA" then some [((49 : Int), sampleRow)] else none) = some s := hs
  by_cases ht : t = "AAA"
  · rw [if_pos ht] at hs2
    injection hs2 with hs2
    rw [← hs2]
    intro x hx
    rcases List.mem_singleton.mp hx with rfl
    refine ⟨?_, ?_, ?_, ?_, ?_⟩ <;> intro v hv <;> injection hv with hv <;> rw [← hv] <;> decide
  · rw [if_neg ht] at hs2
    cases hs2

/-! ### C4 (amended): an empty fetch only reconciles the index -/

theorem lookupKey_setEntry_self (k : String) (v : Int)
    (l : List (String × Int)) : lookupKey k (setEntry k v l) = some v := by
  induction l with
  | nil => simp [setEntry, lookupKey]
  | cons e rest ih =>
      rw [setEntry]
      by_cases he : e.1 = k
      · rw [if_pos he, lookupKey]
        simp
      · rw [if_neg he, lookupKey, if_neg he]
        exact ih

theorem lookupKey_setEntry_other {k k' : String} (h : k ≠ k') (v : Int)
    (l : List (String × Int)) : lookupKey k (setEntry k' v l) = lookupKey k l := by
  induction l with
  | nil =>
      rw [setEntry, lookupKey, lookupKey]
      rw [if_neg (by simpa using h.symm)]
      rfl
  | cons e rest ih =>
      rw [setEntry]
      by_cases he : e.1 = k'
      · rw [if_pos he, lookupKey, lookupKey]
        rw [if_neg (by simpa using h.symm), if_neg (by rw [he]; simpa using h.symm)]
      · rw [if_neg he, lookupKey, lookupKey]
        by_cases he2 : e.1 = k
        · rw [if_pos he2, if_pos he2]
        · rw [if_neg he2, if_neg he2]
          exact ih

theorem lookupKey_filter_key (p : String → Bool) (m : List (String × Int))
    (t : String) :
    lookupKey t (m.filter (fun e => p e.1))
      = (if p t = true then lookupKey t m else none) := by
  induction m with
  | nil =>
      rw [List.filter_nil, lookupKey]
      split <;> rfl
  | cons e rest ih =>
      by_cases he : e.1 = t
      · subst he
        by_cases hp : p e.1 = true
        · simp [List.filter_cons, hp, lookupKey, ih]
        · simp [List.filter_cons, hp, lookupKey, ih]
      · by_cases hp : p e.1 = true
        · simp [List.filter_cons, hp, lookupKey, he, ih]
        · simp [List.filter_cons, hp, lookupKey, he, ih]

theorem lookupKey_some_mem {β : Type} {l : List (String × β)} {t : String} {d : β}
    (h : lookupKey t l = some d) : (t, d) ∈ l := by
  induction l with
  | nil => cases h
  | cons e rest ih =>
      rw [lookupKey] at h
      by_cases he : e.1 = t
      · rw [if_pos he] at h
        injection h with h
        rw [← he, ← h]
        exact List.mem_cons_self _ _
      · rw [if_neg he] at h
        exact List.mem_cons_of_mem _ (ih h)

theorem load_prices_log_none (pr : String → Option Series) :
    load_prices_log ⟨none, pr⟩ = ([], ⟨none, pr⟩) := rfl

theorem load_prices_log_err (e : Unit) (pr : String → Option Series) :
    load_prices_log ⟨some (.error e), pr⟩ = ([], ⟨some (.error e), pr⟩) := rfl

theorem load_prices_log_ok (m : List (String × Int)) (pr : String → Option Series) :
    load_prices_log ⟨some (.ok m), pr⟩
      = (if (m.any fun e => (pr e.1).isNone) = true
         then (m.filter fun e => (pr e.1).isSome,
               ⟨some (.ok (m.filter fun e => (pr e.1).isSome)), pr⟩)
         else (m, ⟨some (.ok m), pr⟩)) := rfl

theorem load_entry (fs : FS) (t : String) :
    lookupKey t (load_prices_log fs).1
      = (if (fs.prices t).isSome then entryOf fs t else none) := by
  rcases fs with ⟨lg, pr⟩
  rcases lg with _ | c
  · rw [load_prices_log_none]
    show (none : Option Int) = if (pr t).isSome = true then none else none
    split <;> rfl
  · rcases c with e | m
    · rw [load_prices_log_err]
      show (none : Option Int) = if (pr t).isSome = true then none else none
      split <;> rfl
    · rw [load_prices_log_ok]
      have hent : entryOf ⟨some (.ok m), pr⟩ t = lookupKey t m := rfl
      by_cases hany : (m.any fun e => (pr e.1).isNone) = true
      · rw [if_pos hany]
        show lookupKey t (m.filter fun e => (pr e.1).isSome) = _
        rw [lookupKey_filter_key (fun k => (pr k).isSome) m t, hent]
      · rw [if_neg hany]
        show lookupKey t m = _
        have hall : ∀ e ∈ m, (pr e.1).isSome = true := by
          intro e he
          have := List.any_eq_false.mp (Bool.not_eq_true _ ▸ hany) e he
          rcases hfs : pr e.1 with _ | s
          · rw [hfs] at this
            simp at this
          · simp
        by_cases hsome : (pr t).isSome = true
        · rw [if_pos hsome, hent]
        · rw [if_neg hsome]
          rcases hlk : lookupKey t m with _ | d
          · rfl
          · have := hall (t, d) (lookupKey_some_mem hlk)
            exact absurd this hsome

theorem load_entry_state (fs : FS) (t : String) :
    entryOf (load_prices_log fs).2 t = lookupKey t (load_prices_log fs).1 := by
  rcases fs with ⟨lg, pr⟩
  rcases lg with _ | c
  · rw [load_prices_log_none]
    rfl
  · rcases c with e | m
    · rw [load_prices_log_err]
      rfl
    · rw [load_prices_log_ok]
      by_cases hany : (m.any fun e => (pr e.1).isNone) = true
      · rw [if_pos hany]
        rfl
      · rw [if_neg hany]
        rfl

/-- What `resolveLast` leaves as the in-memory entry of the ticker it
just examined. -/
def resolvedEntry (st : PassSt) (t : String) : Option Int :=
  match lookupKey t st.logMem with
  | some d => some d
  | none =>
      match st.prices t with
      | some s => if s.isEmpty then none else some (maxDate s)
      | none => none

theorem resolveLast_entry (st : PassSt) (t : String) :
    lookupKey t (resolveLast st t).2.logMem = resolvedEntry st t := by
  rcases hlk : lookupKey t st.logMem with _ | d
  · rcases hp : st.prices t with _ | s
    · simp only [resolveLast, resolvedEntry, hlk, hp]
    · by_cases hemp : s.isEmpty = true
      · simp only [resolveLast, resolvedEntry, hlk, hp]
        rw [if_pos hemp, if_pos hemp]
        exact hlk
      · simp only [resolveLast, resolvedEntry, hlk, hp]
        rw [if_neg hemp, if_neg hemp]
        exact lookupKey_setEntry_self t _ st.logMem
  · simp only [resolveLast, resolvedEntry, hlk]

theorem resolveLast_entry_other {st : PassSt} {t tk : String} (h : t ≠ tk) :
    lookupKey t (resolveLast st tk).2.logMem = lookupKey t st.logMem := by
  rcases hlk : lookupKey tk st.logMem with _ | d
  · rcases hp : st.prices tk with _ | s
    · simp only [resolveLast, hlk, hp]
    · by_cases hemp : s.isEmpty = true
      · simp only [resolveLast, hlk, hp]
        rw [if_pos hemp]
      · simp only [resolveLast, hlk, hp]
        rw [if_neg hemp]
        exact lookupKey_setEntry_other h _ st.logMem
  · simp only [resolveLast, hlk]

theorem fetchPersist_emptyFetch {today cutoff : Int} {oracle : String → Int → FetchOut}
    {st : PassSt} {t : String} {ld : Option Int}
    (hfetch : ∀ s, fetch_prices (oracle t s) = []) :
    fetchPersist today cutoff oracle st t ld = st := by
  simp only [fetchPersist]
  split
  · split
    · rw [hfetch]
      rfl
    · rfl
  · rfl

theorem stepTicker_emptyFetch {today cutoff : Int} {oracle : String → Int → FetchOut}
    {st : PassSt} {t : String}
    (hfetch : ∀ s, fetch_prices (oracle t s) = []) :
    stepTicker today cutoff oracle st t = (resolveLast st t).2 := by
  rw [stepTicker]
  exact fetchPersist_emptyFetch hfetch

theorem fetchPersist_prices_other {today cutoff : Int} {oracle : String → Int → FetchOut}
    {st : PassSt} {t tk : String} {ld : Option Int} (h : t ≠ tk) :
    (fetchPersist today cutoff oracle st tk ld).prices t = st.prices t ∧
    lookupKey t (fetchPersist today cutoff oracle st tk ld).logMem
      = lookupKey t st.logMem := by
  simp only [fetchPersist]
  split
  · split
    · split
      · exact ⟨rfl, rfl⟩
      · constructor
        · show setPrice st.prices tk _ t = st.prices t
          rw [setPrice, if_neg h]
        · exact lookupKey_setEntry_other h _ st.logMem
    · exact ⟨rfl, rfl⟩
  · exact ⟨rfl, rfl⟩

theorem stepTicker_other {today cutoff : Int} {oracle : String → Int → FetchOut}
    {st : PassSt} {t tk : String} (h : t ≠ tk) :
    (stepTicker today cutoff oracle st tk).prices t = st.prices t ∧
    lookupKey t (stepTicker today cutoff oracle st tk).logMem
      = lookupKey t st.logMem := by
  rw [stepTicker]
  rcases @fetchPersist_prices_other today cutoff oracle (resolveLast st tk).2 t tk
    (resolveLast st tk).1 h with ⟨h1, h2⟩
  refine ⟨?_, ?_⟩
  · rw [h1, resolveLast_prices]
  · rw [h2, resolveLast_entry_other h]

theorem resolved_eq_reconciled (fs : FS) (st : PassSt) (t : String)
    (hp : st.prices t = fs.prices t)
    (hl : lookupKey t st.logMem = (if (fs.prices t).isSome then entryOf fs t else none)
        ∨ lookupKey t st.logMem = reconciledEntry fs t) :
    resolvedEntry st t = reconciledEntry fs t := by
  rcases hfp : fs.prices t with _ | s
  · have hrec : reconciledEntry fs t = none := by
      simp only [reconciledEntry, hfp]
    have hlk : lookupKey t st.logMem = none := by
      rcases hl with h | h
      · rw [h, hfp]
        rfl
      · rw [h, hrec]
    rw [hrec]
    simp only [resolvedEntry, hlk, hp, hfp]
  · have hrec : reconciledEntry fs t
        = (match entryOf fs t with
           | some d => some d
           | none => if s.isEmpty then none else some (maxDate s)) := by
      simp only [reconciledEntry, hfp]
    rcases hent : entryOf fs t with _ | d
    · rw [hent] at hrec
      simp only at hrec
      rw [hrec]
      have hsp : st.prices t = some s := by rw [hp, hfp]
      rcases hl with h | h
      · -- first visit: the entry is absent and the file fallback decides
        have hlk : lookupKey t st.logMem = none := by
          rw [h, hfp, hent]
          rfl
        simp only [resolvedEntry, hlk, hsp]
      · rw [hrec] at h
        by_cases hemp : s.isEmpty = true
        · have hlk : lookupKey t st.logMem = none := by
            rw [h, if_pos hemp]
          simp only [resolvedEntry, hlk, hsp]
        · have hlk : lookupKey t st.logMem = some (maxDate s) := by
            rw [h, if_neg hemp]
          simp only [resolvedEntry, hlk]
          rw [if_neg hemp]
    · have hlk : lookupKey t st.logMem = some d := by
        rcases hl with h | h
        · rw [h, hfp, hent]
          rfl
        · rw [h, hrec, hent]
      rw [hrec, hent]
      simp only [resolvedEntry, hlk]

theorem stepTicker_reconciles {today cutoff : Int} {oracle : String → Int → FetchOut}
    {fs : FS} {st : PassSt} {t : String}
    (hfetch : ∀ s, fetch_prices (oracle t s) = [])
    (hp : st.prices t = fs.prices t)
    (hl : lookupKey t st.logMem = (if (fs.prices t).isSome then entryOf fs t else none)
        ∨ lookupKey t st.logMem = reconciledEntry fs t) :
    (stepTicker today cutoff oracle st t).prices t = fs.prices t ∧
    lookupKey t (stepTicker today cutoff oracle st t).logMem = reconciledEntry fs t := by
  rw [stepTicker_emptyFetch hfetch]
  constructor
  · rw [resolveLast_prices]
    exact hp
  · rw [resolveLast_entry]
    exact resolved_eq_reconciled fs st t hp hl

theorem foldl_reconciles (today cutoff : Int) (oracle : String → Int → FetchOut)
    (fs : FS) (t : String) (hfetch : ∀ s, fetch_prices (oracle t s) = [])
    (l : List String) (st : PassSt)
    (h : st.prices t = fs.prices t ∧
      ((lookupKey t st.logMem = (if (fs.prices t).isSome then entryOf fs t else none)
          ∧ t ∈ l)
        ∨ lookupKey t st.logMem = reconciledEntry fs t)) :
    (l.foldl (stepTicker today cutoff oracle) st).prices t = fs.prices t ∧
    lookupKey t (l.foldl (stepTicker today cutoff oracle) st).logMem
      = reconciledEntry fs t := by
  induction l generalizing st with
  | nil =>
      rcases h with ⟨hp, h2⟩
      rcases h2 with ⟨_, hmem⟩ | hrec
      · cases hmem
      · exact ⟨hp, hrec⟩
  | cons x xs ih =>
      rcases h with ⟨hp, h2⟩
      rw [List.foldl_cons]
      by_cases hx : x = t
      · subst hx
        have hstep := @stepTicker_reconciles today cutoff oracle fs st x hfetch hp
          (h2.imp (fun hh => hh.1) id)
        exact ih _ ⟨hstep.1, Or.inr hstep.2⟩
      · have hother := @stepTicker_other today cutoff oracle st t x
          (fun he => hx he.symm)
        apply ih
        refine ⟨hother.1.trans hp, ?_⟩
        rcases h2 with ⟨hpre, hmem⟩ | hrec
        · left
          refine ⟨hother.2.trans hpre, ?_⟩
          rcases List.mem_cons.mp hmem with rfl | hmem2
          · exact absurd rfl hx
          · exact hmem2
        · right
          exact hother.2.trans hrec

theorem fetchPersist_noupdate {today cutoff : Int} {oracle : String → Int → FetchOut}
    {st : PassSt} {t : String} {ld : Option Int}
    (h : (fetchPersist today cutoff oracle st t ld).logUpdated = false) :
    fetchPersist today cutoff oracle st t ld = st := by
  revert h
  simp only [fetchPersist]
  split
  · split
    · split
      · exact fun _ => rfl
      · intro h
        cases h
    · exact fun _ => rfl
  · exact fun _ => rfl

theorem resolveLast_noupdate {st : PassSt} {t : String}
    (h : (resolveLast st t).2.logUpdated = false) : (resolveLast st t).2 = st := by
  revert h
  rw [resolveLast]
  split
  · exact fun _ => rfl
  · split
    · split
      · exact fun _ => rfl
      · intro h
        cases h
    · exact fun _ => rfl

theorem stepTicker_noupdate {today cutoff : Int} {oracle : String → Int → FetchOut}
    {st : PassSt} {t : String}
    (h : (stepTicker today cutoff oracle st t).logUpdated = false) :
    stepTicker today cutoff oracle st t = st := by
  have heq : stepTicker today cutoff oracle st t
      = fetchPersist today cutoff oracle (resolveLast st t).2 t (resolveLast st t).1 := rfl
  rw [heq] at h ⊢
  have h2 := fetchPersist_noupdate h
  rw [h2] at h ⊢
  exact resolveLast_noupdate h

theorem foldl_stepTicker_noupdate (today cutoff : Int)
    (oracle : String → Int → FetchOut) (l : List String) (st : PassSt)
    (h : (l.foldl (stepTicker today cutoff oracle) st).logUpdated = false) :
    l.foldl (stepTicker today cutoff oracle) st = st := by
  induction l generalizing st with
  | nil => rfl
  | cons x xs ih =>
      rw [List.foldl_cons] at h ⊢
      have h1 := ih _ h
      rw [h1] at h ⊢
      exact stepTicker_noupdate h

/-- Claim C4 amended: for an entity whose every fetch raises (caught
inside `fetch_prices`) or returns no rows, a pass of
`update_stock_prices` leaves its on-disk series untouched and the pass
continues; the freshness-index entry, however, is not literally unchanged
but reconciled with storage — dropped if the entity's parquet file is
missing, restored from a non-empty file by the file-fallback, and kept
as-is otherwise. -/
theorem C4_empty_fetch_reconciles (today cutoff : Int)
    (oracle : String → Int → FetchOut) (tickers : List String) (fs : FS)
    (t : String) (ht : t ∈ tickers)
    (hfetch : ∀ s, fetch_prices (oracle t s) = []) :
    (update_stock_prices today cutoff oracle tickers fs).prices t = fs.prices t ∧
    entryOf (update_stock_prices today cutoff oracle tickers fs) t
      = reconciledEntry fs t := by
  have hst0 : (⟨(load_prices_log fs).2.prices, (load_prices_log fs).1, false⟩ :
      PassSt).prices t = fs.prices t := by
    show (load_prices_log fs).2.prices t = fs.prices t
    rw [load_prices_log_prices]
  have hfold := foldl_reconciles today cutoff oracle fs t hfetch tickers
    ⟨(load_prices_log fs).2.prices, (load_prices_log fs).1, false⟩
    ⟨hst0, Or.inl ⟨load_entry fs t, ht⟩⟩
  have hupdate : update_stock_prices today cutoff oracle tickers fs
      = (if (tickers.foldl (stepTicker today cutoff oracle)
            ⟨(load_prices_log fs).2.prices, (load_prices_log fs).1, false⟩).logUpdated
         then { log := some (.ok (tickers.foldl (stepTicker today cutoff oracle)
                  ⟨(load_prices_log fs).2.prices, (load_prices_log fs).1, false⟩).logMem),
                prices := (tickers.foldl (stepTicker today cutoff oracle)
                  ⟨(load_prices_log fs).2.prices, (load_prices_log fs).1, false⟩).prices }
         else { (load_prices_log fs).2 with
                prices := (tickers.foldl (stepTicker today cutoff oracle)
                  ⟨(load_prices_log fs).2.prices, (load_prices_log fs).1, false⟩).prices }) :=
    rfl
  by_cases hu : (tickers.foldl (stepTicker today cutoff oracle)
      ⟨(load_prices_log fs).2.prices, (load_prices_log fs).1, false⟩).logUpdated = true
  · rw [hupdate, if_pos hu]
    exact ⟨hfold.1, hfold.2⟩
  · rw [hupdate, if_neg hu]
    have hid := foldl_stepTicker_noupdate today cutoff oracle tickers
      ⟨(load_prices_log fs).2.prices, (load_prices_log fs).1, false⟩
      (Bool.not_eq_true _ ▸ hu)
    refine ⟨hfold.1, ?_⟩
    show entryOf (load_prices_log fs).2 t = reconciledEntry fs t
    rw [load_entry_state]
    have := hfold.2
    rw [hid] at this
    exact this

/-- Witness for the amended C4: ticker `AAA` absent from the log with a
non-empty file dated 49; an always-empty fetch leaves the series alone
and restores the entry to 49 (= `reconciledEntry`). -/
theorem C4_empty_fetch_reconciles_witness :
    (update_stock_prices 100 50 (fun _ _ => FetchOut.ok []) ["AAA"] fsC4).prices "AAA"
      = fsC4.prices "AAA" ∧
    entryOf (update_stock_prices 100 50 (fun _ _ => FetchOut.ok []) ["AAA"] fsC4) "AAA"
      = reconciledEntry fsC4 "AAA" :=
  C4_empty_fetch_reconciles 100 50 (fun _ _ => FetchOut.ok []) ["AAA"] fsC4 "AAA"
    (by decide) (fun s => rfl)

end EquitySchema
